import Mathlib

/-!
Shallow embedding of soar_utils.py (repository justinnhli/soar_exp) and proofs
about its parameter-space engine, tree shadow store, command intake, session
state machine, experiment-runner argument check, and report-row serializer.

Python dicts are embedded as insertion-ordered association lists; machine-level
details (the external SML engine) are modelled as an explicit external-call log
so that the number of creation/destroy requests issued by the code is visible.
-/

namespace Soar

/-! ## Association lists: the embedding of Python dicts.

Python dict semantics used by the source: lookup, insert-or-update (an update
keeps the key's position, an insert appends), delete of a present key, and
iteration in insertion order. -/

/-- Python d.get(k) / d[k] lookup. -/
def alGet {K A : Type} [DecidableEq K] : List (K × A) → K → Option A
  | [], _ => none
  | kv :: rest, k => if kv.1 = k then some kv.2 else alGet rest k

/-- Python d[k] = a: update in place if the key is present, else append. -/
def alSet {K A : Type} [DecidableEq K] : List (K × A) → K → A → List (K × A)
  | [], k, a => [(k, a)]
  | kv :: rest, k, a => if kv.1 = k then (k, a) :: rest else kv :: alSet rest k a

/-- Python del d[k] (keys are unique, so removing the first hit suffices). -/
def alErase {K A : Type} [DecidableEq K] : List (K × A) → K → List (K × A)
  | [], _ => []
  | kv :: rest, k => if kv.1 = k then rest else kv :: alErase rest k

theorem alGet_alSet_self {K A : Type} [DecidableEq K] (l : List (K × A)) (k : K) (a : A) :
    alGet (alSet l k a) k = some a := by
  induction l with
  | nil => simp [alGet, alSet]
  | cons kv rest ih =>
    by_cases h : kv.1 = k
    · simp [alGet, alSet, h]
    · simp [alGet, alSet, h, ih]

theorem alGet_of_mem_of_nodup {K A : Type} [DecidableEq K] {l : List (K × A)} {kv : K × A}
    (hn : (l.map Prod.fst).Nodup) (hm : kv ∈ l) : alGet l kv.1 = some kv.2 := by
  induction l with
  | nil => simp at hm
  | cons x xs ih =>
    rw [List.map_cons, List.nodup_cons] at hn
    rcases List.mem_cons.1 hm with h | hm'
    · subst h; simp [alGet]
    · have hx : x.1 ≠ kv.1 := by
        intro hEq
        exact hn.1 (hEq ▸ List.mem_map_of_mem Prod.fst hm')
      simp [alGet, hx, ih hn.2 hm']

/-! ## ParameterSpace (soar_utils.py lines 290-340).

The key type K abstracts the Python parameter-name strings: Python str is a
linear order and sorted(keys) sorts by it, so the embedding only needs a
LinearOrder on K.  Domain values V need decidable equality (Python relies on
value equality for dict keys elsewhere). -/

/-- The possible shapes a declared domain can arrive in, before
_repair_parameter_space normalizes it (tuple / list / range / generator are
carried with their materialized element sequence). -/
inductive RawDomain (V : Type) where
  | tup (l : List V)
  | lst (l : List V)
  | rng (l : List V)
  | gen (l : List V)
  | scalar (v : V)
deriving DecidableEq

/-- _repair_parameter_space, per declared entry: a tuple is left alone; a
list / range / generator is materialized with tuple(...); anything else is
wrapped as a one-element tuple. No emptiness check is performed. -/
def repairDomain {V : Type} : RawDomain V → List V
  | .tup l => l
  | .lst l => l
  | .rng l => l
  | .gen l => l
  | .scalar v => [v]

/-- ParameterSpace state: parameter_space (dict name -> domain tuple, already
repaired), filters (the registered predicates; Python keeps a set, but only
the conjunction of all of them is ever used), dependent_functions (dict
name -> function, applied in insertion order). -/
structure ParameterSpace (K V : Type) where
  parameter_space : List (K × List V)
  filters : List (List (K × V) → Bool)
  dependent_functions : List (K × (List (K × V) → V))

/-- ParameterSpace.__init__ followed by _repair_parameter_space. -/
def mkParameterSpace {K V : Type} (raw : List (K × RawDomain V)) : ParameterSpace K V :=
  ⟨raw.map (fun kv => (kv.1, repairDomain kv.2)), [], []⟩

variable {K V : Type}

/-- keys = sorted(self.parameter_space.keys()) in permutations(). -/
def sortedKeys [LinearOrder K] (ps : ParameterSpace K V) : List K :=
  List.insertionSort (· ≤ ·) (ps.parameter_space.map Prod.fst)

/-- self.parameter_space[key] (defaulting to an empty domain, never reached
for declared keys). -/
def lookupDomain [DecidableEq K] (ps : ParameterSpace K V) (k : K) : List V :=
  (alGet ps.parameter_space k).getD []

/-- itertools.product(*domains): nested loops with the first domain outermost,
the last domain varying fastest. -/
def cartProd : List (List V) → List (List V)
  | [] => [[]]
  | d :: ds => d.flatMap (fun v => (cartProd ds).map (v :: ·))

/-- ParameterSpace.permutations (lines 333-340): sorted keys, cross product
over all declared domains, NameSpace(**dict(zip(keys, values))), dependent
functions applied in order (parameters[name] = fn(parameters)), then the
configuration is yielded iff every filter holds. -/
def permutations [LinearOrder K] (ps : ParameterSpace K V) : List (List (K × V)) :=
  (cartProd ((sortedKeys ps).map (lookupDomain ps))).filterMap (fun values =>
    let parameters := (sortedKeys ps).zip values
    let parameters := ps.dependent_functions.foldl (fun p nf => alSet p nf.1 (nf.2 p)) parameters
    if ps.filters.all (fun f => f parameters) then some parameters else none)

theorem length_cartProd (ds : List (List V)) :
    (cartProd ds).length = (ds.map List.length).prod := by
  induction ds with
  | nil => rfl
  | cons d ds ih =>
    simp [cartProd, List.length_flatMap, Function.comp_def, ih, List.map_const',
      List.sum_replicate, List.prod_cons, Nat.smul_one_eq_cast]

theorem length_of_mem_cartProd {ds : List (List V)} {vs : List V}
    (h : vs ∈ cartProd ds) : vs.length = ds.length := by
  induction ds generalizing vs with
  | nil =>
    simp [cartProd] at h
    simp [h]
  | cons d ds ih =>
    simp only [cartProd, List.mem_flatMap, List.mem_map] at h
    obtain ⟨v, _, ws, hws, rfl⟩ := h
    simp [ih hws]

theorem cartProd_eq_nil_of_mem {ds : List (List V)} (h : [] ∈ ds) :
    cartProd ds = [] := by
  induction ds with
  | nil => simp at h
  | cons d ds ih =>
    rcases List.mem_cons.1 h with h | h
    · rw [← h]; rfl
    · simp [cartProd, ih h]

theorem nodup_cartProd {ds : List (List V)} (h : ∀ d ∈ ds, d.Nodup) :
    (cartProd ds).Nodup := by
  induction ds with
  | nil => simp [cartProd]
  | cons d ds ih =>
    rw [cartProd, List.nodup_flatMap]
    constructor
    · intro v _
      refine (ih fun x hx => h x (List.mem_cons_of_mem _ hx)).map ?_
      intro a b hab
      exact (List.cons.injEq v a v b).mp hab |>.2
    · refine (h d (List.mem_cons_self d ds)).imp ?_
      intro a b hab x hxa hxb
      rw [List.mem_map] at hxa hxb
      obtain ⟨t, _, rfl⟩ := hxa
      obtain ⟨s, _, h2⟩ := hxb
      exact hab ((List.cons.injEq a t b s).mp h2.symm |>.1)

/-- The cross-product enumeration of index tuples: for sizes n1..nk, every
tuple (i1,...,ik) with ij < nj, first position outermost, last position
varying fastest -- the order in which itertools.product walks the product. -/
def idxEnum : List Nat → List (List Nat)
  | [] => [[]]
  | n :: ns => (List.range n).flatMap (fun i => (idxEnum ns).map (i :: ·))

/-- Positionwise selection: the value tuple a given index tuple picks out of
the given domains. -/
def pickIdx [Inhabited V] (ds : List (List V)) (ixs : List Nat) : List V :=
  List.zipWith (fun d i => d.getD i default) ds ixs

theorem map_getD_range [Inhabited V] (l : List V) :
    (List.range l.length).map (fun i => l.getD i default) = l := by
  induction l with
  | nil => rfl
  | cons a t ih =>
    rw [List.length_cons, List.range_succ_eq_map, List.map_cons, List.map_map]
    simp only [Function.comp_def, List.getD_cons_zero, List.getD_cons_succ]
    rw [ih]

theorem cartProd_eq_idxEnum_pick [Inhabited V] (ds : List (List V)) :
    cartProd ds = (idxEnum (ds.map List.length)).map (pickIdx ds) := by
  induction ds with
  | nil => rfl
  | cons d ds ih =>
    rw [cartProd, List.map_cons, idxEnum, List.map_flatMap]
    conv_lhs => rw [← map_getD_range d, List.flatMap_map]
    simp only [ih, List.map_map]
    simp [Function.comp_def, pickIdx, List.zipWith_cons_cons]

theorem pairwise_lex_idxEnum (ns : List Nat) :
    List.Pairwise (fun x y => List.Lex (· < ·) x y) (idxEnum ns) := by
  induction ns with
  | nil => simp [idxEnum]
  | cons n ns ih =>
    rw [idxEnum, List.pairwise_flatMap]
    constructor
    · intro i _
      rw [List.pairwise_map]
      exact ih.imp (fun hab => List.Lex.cons hab)
    · refine (List.pairwise_lt_range n).imp ?_
      intro a b hab x hx y hy
      rw [List.mem_map] at hx hy
      obtain ⟨is, _, rfl⟩ := hx
      obtain ⟨js, _, rfl⟩ := hy
      exact List.Lex.rel hab

theorem filterMap_some_comp {α β : Type} (f : α → β) (l : List α) :
    l.filterMap (fun a => some (f a)) = l.map f := by
  induction l with
  | nil => rfl
  | cons x xs ih => simp [List.filterMap_cons, ih]

theorem permutations_eq_of_no_filters [LinearOrder K] (ps : ParameterSpace K V)
    (hf : ps.filters = []) (hd : ps.dependent_functions = []) :
    permutations ps =
      (cartProd ((sortedKeys ps).map (lookupDomain ps))).map ((sortedKeys ps).zip ·) := by
  unfold permutations
  rw [hf, hd]
  simp only [List.foldl_nil, List.all_nil, if_true]
  exact filterMap_some_comp _ _

/-- A space whose declared domain repeats a value: domain sizes are 2, but the
two enumerated configurations are identical. -/
def cexC1 : ParameterSpace Nat Nat := ⟨[(0, [1, 1])], [], []⟩

/-- C1 counterexample: a ParameterSpace with no filters and no dependent
functions whose single declared domain is (1, 1) makes permutations() yield
the product (two) configurations, but they are equal, so they are not each a
distinct assignment as the claim states for every ParameterSpace. -/
theorem C1_counterexample :
    permutations cexC1 = [[(0, 1)], [(0, 1)]] ∧ ¬ (permutations cexC1).Nodup := by
  constructor
  · rfl
  · decide

/-- C1 (amended): for every ParameterSpace with no filters and no dependent
functions, permutations() yields exactly the product of the domain sizes,
each configuration assigning one value per declared name with the names in
sorted order, and the enumeration is exactly the sorted-key cross-product
order: it equals the positionwise decode of the strictly lexicographically
increasing enumeration of domain-index tuples.  When additionally every
declared domain has pairwise-distinct values, the configurations are
pairwise distinct (with a repeated domain value equal configurations appear:
see the counterexample). -/
theorem C1_permutations_cross_product_amended [LinearOrder K] [DecidableEq V]
    [Inhabited V] (ps : ParameterSpace K V)
    (hf : ps.filters = []) (hd : ps.dependent_functions = [])
    (hk : (ps.parameter_space.map Prod.fst).Nodup) :
    (permutations ps).length = (ps.parameter_space.map (fun kd => kd.2.length)).prod
    ∧ (∀ c ∈ permutations ps, c.map Prod.fst = sortedKeys ps)
    ∧ (sortedKeys ps).Perm (ps.parameter_space.map Prod.fst)
    ∧ List.Sorted (· ≤ ·) (sortedKeys ps)
    ∧ permutations ps
        = (idxEnum (((sortedKeys ps).map (lookupDomain ps)).map List.length)).map
            (fun ixs => (sortedKeys ps).zip
              (pickIdx ((sortedKeys ps).map (lookupDomain ps)) ixs))
    ∧ List.Pairwise (fun x y => List.Lex (· < ·) x y)
        (idxEnum (((sortedKeys ps).map (lookupDomain ps)).map List.length))
    ∧ ((∀ kd ∈ ps.parameter_space, kd.2.Nodup) → (permutations ps).Nodup) := by
  have hperm : (sortedKeys ps).Perm (ps.parameter_space.map Prod.fst) :=
    List.perm_insertionSort _ _
  have hpe := permutations_eq_of_no_filters ps hf hd
  have hlen : ∀ vs ∈ cartProd ((sortedKeys ps).map (lookupDomain ps)),
      vs.length = (sortedKeys ps).length := by
    intro vs hvs
    simpa using length_of_mem_cartProd hvs
  refine ⟨?_, ?_, hperm, List.sorted_insertionSort _ _, ?_, pairwise_lex_idxEnum _, ?_⟩
  · rw [hpe, List.length_map, length_cartProd, List.map_map]
    rw [List.Perm.prod_eq (hperm.map (List.length ∘ lookupDomain ps))]
    rw [List.map_map]
    refine congrArg List.prod (List.map_congr_left ?_)
    intro kv hkv
    simp only [Function.comp_apply, lookupDomain, alGet_of_mem_of_nodup hk hkv,
      Option.getD_some]
  · intro c hc
    rw [hpe, List.mem_map] at hc
    obtain ⟨vs, hvs, rfl⟩ := hc
    exact List.map_fst_zip _ _ (le_of_eq (hlen vs hvs).symm)
  · rw [hpe, cartProd_eq_idxEnum_pick, List.map_map]
    rfl
  · intro hnd
    have hdnd : ∀ d ∈ (sortedKeys ps).map (lookupDomain ps), d.Nodup := by
      intro d hd'
      rw [List.mem_map] at hd'
      obtain ⟨k, hk', rfl⟩ := hd'
      have hk2 : k ∈ ps.parameter_space.map Prod.fst := hperm.mem_iff.mp hk'
      rw [List.mem_map] at hk2
      obtain ⟨kv, hkv, rfl⟩ := hk2
      rw [lookupDomain, alGet_of_mem_of_nodup hk hkv]
      exact hnd kv hkv
    rw [hpe]
    refine List.Nodup.map_on ?_ (nodup_cartProd hdnd)
    intro x hx y hy hxy
    have h2 := congrArg (List.map Prod.snd) hxy
    rwa [List.map_snd_zip _ _ (le_of_eq (hlen x hx)),
      List.map_snd_zip _ _ (le_of_eq (hlen y hy))] at h2

/-- A duplicate-free two-parameter space for exercising the amended C1. -/
def wC1 : ParameterSpace Nat Nat := ⟨[(1, [10, 20]), (0, [1, 2, 3])], [], []⟩

theorem C1_witness :
    (permutations wC1).length = 6 ∧ (permutations wC1).Nodup :=
  ⟨((C1_permutations_cross_product_amended wC1 rfl rfl (by decide)).1).trans (by decide),
   (C1_permutations_cross_product_amended wC1 rfl rfl (by decide)).2.2.2.2.2.2 (by decide)⟩

theorem alSet_eq_append_of_not_mem {A : Type} [DecidableEq K] {l : List (K × A)} {k : K}
    (h : k ∉ l.map Prod.fst) (a : A) : alSet l k a = l ++ [(k, a)] := by
  induction l with
  | nil => rfl
  | cons kv rest ih =>
    rw [List.map_cons, List.mem_cons] at h
    push_neg at h
    have hne : kv.1 ≠ k := fun h' => h.1 h'.symm
    simp [alSet, hne, ih h.2]

/-- The space of the spec's own example: parameter 0 (the name a) declared
with domain ("1",) and a dependent parameter 1 (the name b) whose registered
function returns the template string "\x7ba\x7d\x7ba\x7d" (two
a-placeholders). -/
def cexC2 : ParameterSpace Nat String :=
  ⟨[(0, ["1"])], [], [(1, fun _ => "\x7ba\x7d\x7ba\x7d")]⟩

/-- C2 counterexample: the permutations() of this source file stores a
dependent value exactly as returned by its function, so with a="1" and the
dependent b returning the template string with two a-placeholders, the yielded
configuration carries the literal template, not "11"; no substitution pass,
fixed-point iteration, or UnresolvableTemplateError exists in this code. -/
theorem C2_counterexample :
    permutations cexC2 = [[(0, "1"), (1, "\x7ba\x7d\x7ba\x7d")]] ∧
      "\x7ba\x7d\x7ba\x7d" ≠ "11" := by
  constructor
  · rfl
  · decide

/-- C2 (amended): during permutations(), each dependent parameter's value is
stored verbatim as returned by its registered function (no template
substitution happens, so a template-shaped string stays literal and no
unresolvable-template error can arise): with a single dependent function
(m, f) on a fresh name, every yielded configuration is the sorted-key domain
assignment with (m, f assignment) appended. -/
theorem C2_dependent_verbatim_amended [LinearOrder K] [DecidableEq V]
    (ps : ParameterSpace K V) (m : K) (f : List (K × V) → V)
    (hf : ps.filters = [])
    (hd : ps.dependent_functions = [(m, f)])
    (hm : m ∉ ps.parameter_space.map Prod.fst) :
    permutations ps = (cartProd ((sortedKeys ps).map (lookupDomain ps))).map
      (fun vs => ((sortedKeys ps).zip vs) ++ [(m, f ((sortedKeys ps).zip vs))]) := by
  unfold permutations
  rw [hf, hd]
  simp only [List.foldl_cons, List.foldl_nil, List.all_nil, if_true]
  rw [filterMap_some_comp]
  refine List.map_congr_left ?_
  intro vs hvs
  have hlen : vs.length = (sortedKeys ps).length := by
    simpa using length_of_mem_cartProd hvs
  have hbase : ((sortedKeys ps).zip vs).map Prod.fst = sortedKeys ps :=
    List.map_fst_zip _ _ (le_of_eq hlen.symm)
  have hmk : m ∉ ((sortedKeys ps).zip vs).map Prod.fst := by
    rw [hbase]
    intro hmem
    exact hm ((List.perm_insertionSort _ _).mem_iff.mp hmem)
  exact alSet_eq_append_of_not_mem hmk _

/-- One declared constant domain plus one dependent function on a fresh name. -/
def wC2 : ParameterSpace Nat Nat := ⟨[(0, [5])], [], [(1, fun _ => 7)]⟩

theorem C2_witness : permutations wC2 = [[(0, 5), (1, 7)]] :=
  (C2_dependent_verbatim_amended wC2 1 (fun _ => 7) rfl rfl (by decide)).trans (by rfl)

/-- ParameterSpace(x=[]) -- an empty list domain. -/
def cexC3 : ParameterSpace Nat Nat := mkParameterSpace [(0, RawDomain.lst [])]

/-- C3 counterexample: declaring a parameter with an empty sequence domain
does not fail (no ConfigurationError exists in this code); the construction
succeeds and the declared name keeps an empty domain, violating the claimed
non-empty-domain invariant. -/
theorem C3_counterexample :
    cexC3.parameter_space = [(0, [])] ∧
      ¬ ∀ kd ∈ cexC3.parameter_space, kd.2 ≠ [] := by
  constructor
  · rfl
  · decide

/-- C3 (amended): declaring a parameter whose domain is an empty sequence is
accepted without error -- the name remains declared with an empty (repaired)
domain -- and permutations() of the resulting space yields no configurations. -/
theorem C3_declare_empty_domain_amended [LinearOrder K] [DecidableEq V]
    (raw : List (K × RawDomain V)) (k : K)
    (hmem : (k, RawDomain.lst ([] : List V)) ∈ raw)
    (hk : ((mkParameterSpace raw).parameter_space.map Prod.fst).Nodup) :
    (k, ([] : List V)) ∈ (mkParameterSpace raw).parameter_space ∧
      permutations (mkParameterSpace raw) = [] := by
  have hmem2 : (k, ([] : List V)) ∈ (mkParameterSpace raw).parameter_space :=
    List.mem_map_of_mem (fun kv => (kv.1, repairDomain kv.2)) hmem
  refine ⟨hmem2, ?_⟩
  have hget : alGet (mkParameterSpace raw).parameter_space k = some [] :=
    alGet_of_mem_of_nodup hk hmem2
  have hkk : k ∈ sortedKeys (mkParameterSpace raw) :=
    (List.perm_insertionSort _ _).mem_iff.mpr (List.mem_map_of_mem Prod.fst hmem2)
  have hnil : ([] : List V) ∈ (sortedKeys (mkParameterSpace raw)).map
      (lookupDomain (mkParameterSpace raw)) := by
    rw [List.mem_map]
    exact ⟨k, hkk, by simp [lookupDomain, hget]⟩
  unfold permutations
  rw [cartProd_eq_nil_of_mem hnil]
  rfl

/-- An empty list domain next to an ordinary scalar one. -/
def wC3raw : List (Nat × RawDomain Nat) := [(0, RawDomain.lst []), (1, RawDomain.scalar 5)]

theorem C3_witness :
    (0, ([] : List Nat)) ∈ (mkParameterSpace wC3raw).parameter_space ∧
      permutations (mkParameterSpace wC3raw) = [] :=
  C3_declare_empty_domain_amended wC3raw 0 (by decide) (by decide)

/-! ## SoarEnvironment tree shadow store (soar_utils.py lines 217-252).

The external engine boundary (Agent.create_wme / Agent.destroy_wme) is
modelled as a fresh-handle counter plus logs of the creation and destroy
requests the code issues, so that the number of external calls is provable.
Parent identifiers are an abstract type P (Agent.Identifier compares by time
tag), attributes are strings, and a scalar child value is some v while
child=None is none. -/

/-- One stored value of the innermost dict wmes[parent][attr]: add_wme stores
a bare WME handle under a scalar child key, and a Python set of handles under
the None child key. -/
inductive Entry where
  | wme (h : Nat)
  | wmeSet (hs : List Nat)
deriving DecidableEq

/-- The wrapped SML agent as the shadow store uses it: a source of fresh
time-tagged WME handles and the log of external create/destroy requests. -/
structure AgentExt (P V : Type) where
  nextTag : Nat
  createLog : List (P × String × Option V)
  destroyLog : List Nat
deriving DecidableEq

/-- Agent.create_wme: issues one external creation request and returns the
new WME handle. -/
def create_wme {P V : Type} (ag : AgentExt P V) (parent : P) (attr : String)
    (child : Option V) : Nat × AgentExt P V :=
  (ag.nextTag, ⟨ag.nextTag + 1, ag.createLog ++ [(parent, attr, child)], ag.destroyLog⟩)

/-- Agent.destroy_wme: asserts its argument is a single WME object before
issuing the external destroy.  del_wme can hand it the stored Python set
instead, which trips that assertion -- modelled as none. -/
def destroy_wme {P V : Type} (ag : AgentExt P V) : Entry → Option (AgentExt P V)
  | .wme h => some ⟨ag.nextTag, ag.createLog, ag.destroyLog ++ [h]⟩
  | .wmeSet _ => none

/-- The environment state the shadow-store methods touch: self.wmes (dict
parent -> dict attr -> dict child -> entry) and self.agent. -/
structure EnvState (P V : Type) where
  wmes : List (P × List (String × List (Option V × Entry)))
  agent : AgentExt P V

def emptyEnv {P V : Type} : EnvState P V := ⟨[], ⟨0, [], []⟩⟩

/-- SoarEnvironment.add_wme (lines 239-252): ensure the parent and attribute
sub-dicts exist; for child=None assign a fresh empty set, create the WME, and
add its handle to that set; for a scalar child create the WME and assign its
handle under the child key (overwriting whatever was there).  Exactly one
external creation request per call; returns the new handle. -/
def add_wme {P V : Type} [DecidableEq P] [DecidableEq V]
    (st : EnvState P V) (parent : P) (attr : String) (child : Option V) :
    EnvState P V × Nat :=
  let pm := (alGet st.wmes parent).getD []
  let am := (alGet pm attr).getD []
  match child with
  | none =>
    let (h, ag) := create_wme st.agent parent attr none
    let am' := alSet am none (Entry.wmeSet [h])
    (⟨alSet st.wmes parent (alSet pm attr am'), ag⟩, h)
  | some c =>
    let (h, ag) := create_wme st.agent parent attr (some c)
    let am' := alSet am (some c) (Entry.wme h)
    (⟨alSet st.wmes parent (alSet pm attr am'), ag⟩, h)

/-- SoarEnvironment.del_wme (lines 229-238): returns (state, false) untouched
when the triple is unknown; otherwise destroys the stored entry, deletes the
child key, and prunes the attribute and parent dicts if they became empty,
returning true.  The result is none when the Python code would die on
Agent.destroy_wme's isinstance assertion (the stored entry is a set). -/
def del_wme {P V : Type} [DecidableEq P] [DecidableEq V]
    (st : EnvState P V) (parent : P) (attr : String) (child : Option V) :
    Option (EnvState P V × Bool) :=
  match alGet st.wmes parent with
  | none => some (st, false)
  | some pm =>
    match alGet pm attr with
    | none => some (st, false)
    | some am =>
      match alGet am child with
      | none => some (st, false)
      | some entry =>
        match destroy_wme st.agent entry with
        | none => none
        | some ag =>
          let am' := alErase am child
          let pm' := if am'.isEmpty then alErase pm attr else alSet pm attr am'
          let wmes' := if pm'.isEmpty then alErase st.wmes parent else alSet st.wmes parent pm'
          some (⟨wmes', ag⟩, true)

/-- The shadow entry recorded under wmes[parent][attr][child], if any. -/
def getEntry {P V : Type} [DecidableEq P] [DecidableEq V]
    (st : EnvState P V) (parent : P) (attr : String) (child : Option V) : Option Entry :=
  alGet ((alGet ((alGet st.wmes parent).getD []) attr).getD []) child

/-- State after one scalar add of (0, "a", 5) on an empty store. -/
def c4st1 : EnvState Nat Nat := (add_wme emptyEnv 0 "a" (some 5)).1

/-- C4 counterexample: adding the very same scalar triple (0, "a", 5) a second
time raises nothing -- the call completes, issues a second external creation
request (two entries in the create log), and silently overwrites the recorded
handle with the new one; no DuplicateAttachmentError exists in this code. -/
theorem C4_counterexample :
    (add_wme c4st1 0 "a" (some 5)).1.agent.createLog
        = [(0, "a", some 5), (0, "a", some 5)] ∧
      getEntry (add_wme c4st1 0 "a" (some 5)).1 0 "a" (some 5) = some (Entry.wme 1) := by
  constructor
  · rfl
  · rfl

/-- C4 (amended): add with a non-None scalar child whose exact value is
already present under (parent, attribute) does not raise: it issues one more
external creation request, returns the fresh handle, and overwrites the
recorded handle for that triple with the fresh one. -/
theorem C4_duplicate_overwrite_amended {P V : Type} [DecidableEq P] [DecidableEq V]
    (st : EnvState P V) (parent : P) (attr : String) (c : V) (e : Entry)
    (_hpresent : getEntry st parent attr (some c) = some e) :
    (add_wme st parent attr (some c)).2 = st.agent.nextTag ∧
    (add_wme st parent attr (some c)).1.agent.createLog
      = st.agent.createLog ++ [(parent, attr, some c)] ∧
    getEntry (add_wme st parent attr (some c)).1 parent attr (some c)
      = some (Entry.wme st.agent.nextTag) := by
  refine ⟨rfl, rfl, ?_⟩
  simp [getEntry, add_wme, create_wme, alGet_alSet_self]

theorem C4_witness :
    (add_wme c4st1 0 "a" (some 5)).2 = 1 ∧
    (add_wme c4st1 0 "a" (some 5)).1.agent.createLog
      = [(0, "a", some 5), (0, "a", some 5)] ∧
    getEntry (add_wme c4st1 0 "a" (some 5)).1 0 "a" (some 5) = some (Entry.wme 1) := by
  have h := C4_duplicate_overwrite_amended c4st1 0 "a" 5 (Entry.wme 0) (by rfl)
  exact ⟨h.1, h.2.1, h.2.2⟩

/-- State after two child=None adds on the same (0, "a") slot. -/
def c5st2 : EnvState Nat Nat := (add_wme (add_wme emptyEnv 0 "a" none).1 0 "a" none).1

/-- C5: after two add calls with child=None on the same slot the shadow
tracks only the handle of the second call -- the code reassigns a fresh empty
set on every None-add before inserting, so the first member is lost -- even
though two external creation requests were issued. -/
theorem C5_none_set_reset :
    getEntry c5st2 0 "a" none = some (Entry.wmeSet [1]) ∧
      c5st2.agent.createLog.length = 2 := by
  constructor
  · rfl
  · rfl

/-- State after one scalar add of (0, "a", 7) on an empty store. -/
def c6scalar : EnvState Nat Nat := (add_wme emptyEnv 0 "a" (some 7)).1

/-- State after one child=None add of (0, "a") on an empty store. -/
def c6none : EnvState Nat Nat := (add_wme emptyEnv 0 "a" none).1

/-- C6: for a scalar child the add/remove round trip does return true and
leaves the store empty with no residual maps and exactly one destroy request,
and removing a never-added triple returns false with no destroy request; but
for the child=None triple that add_wme itself stores, del_wme hands the stored
set to Agent.destroy_wme, whose isinstance assertion fails (modelled none), so
the remove crashes instead of returning true. -/
theorem C6_roundtrip_and_none_crash :
    del_wme c6scalar 0 "a" (some 7)
        = some (⟨[], ⟨1, [(0, "a", some 7)], [0]⟩⟩, true) ∧
      del_wme (emptyEnv : EnvState Nat Nat) 0 "a" (some 7) = some (emptyEnv, false) ∧
      (emptyEnv : EnvState Nat Nat).agent.destroyLog = [] ∧
      del_wme c6none 0 "a" none = none := by
  refine ⟨rfl, rfl, rfl, rfl⟩

/-! ## Command intake (soar_utils.py lines 206-216 and 253-261). -/

/-- A child WME of the output link as parse_output_commands sees it: its
attribute name, the stable time tag of its value identifier, and the snapshot
of its argument children (attribute -> value). -/
structure CmdWme (V : Type) where
  attr : String
  tag : Nat
  args : List (String × V)
deriving DecidableEq

/-- SoarEnvironment.Command: name taken from the carrying WME's attribute and
the eagerly captured argument mapping; the tag identifies the carrying node. -/
structure Command (V : Type) where
  name : String
  tag : Nat
  arguments : List (String × V)
deriving DecidableEq

def mkCommand {V : Type} (w : CmdWme V) : Command V := ⟨w.attr, w.tag, w.args⟩

/-- The loop body of parse_output_commands: skip a child whose time tag is
already processed, else collect the wrapped Command and mark the tag. -/
def intakeStep {V : Type} (acc : List (Command V) × List Nat) (w : CmdWme V) :
    List (Command V) × List Nat :=
  if w.tag ∈ acc.2 then acc else (acc.1 ++ [mkCommand w], acc.2 ++ [w.tag])

/-- SoarEnvironment.parse_output_commands (lines 253-261): the output link may
be None (the agent never wrote to it), in which case nothing is returned and
the processed set is untouched; otherwise every not-yet-processed child is
wrapped and marked processed. -/
def parse_output_commands {V : Type} (output_link : Option (List (CmdWme V)))
    (processed : List Nat) : List (Command V) × List Nat :=
  match output_link with
  | none => ([], processed)
  | some children => children.foldl intakeStep ([], processed)

theorem intake_snd_mono {V : Type} (children : List (CmdWme V))
    (acc : List (Command V) × List Nat) {t : Nat} (ht : t ∈ acc.2) :
    t ∈ (children.foldl intakeStep acc).2 := by
  induction children generalizing acc with
  | nil => exact ht
  | cons w ws ih =>
    rw [List.foldl_cons]
    refine ih _ ?_
    unfold intakeStep
    by_cases h : w.tag ∈ acc.2
    · simpa [h] using ht
    · simp [h, List.mem_append]
      exact Or.inl ht

theorem intake_all_tags_mem {V : Type} (children : List (CmdWme V))
    (acc : List (Command V) × List Nat) :
    ∀ w ∈ children, w.tag ∈ (children.foldl intakeStep acc).2 := by
  induction children generalizing acc with
  | nil => intro w hw; simp at hw
  | cons x xs ih =>
    intro w hw
    rw [List.foldl_cons]
    rcases List.mem_cons.1 hw with h | h
    · subst h
      refine intake_snd_mono xs _ ?_
      unfold intakeStep
      by_cases hx : w.tag ∈ acc.2
      · simp only [hx, if_true]
      · simp [hx]
    · exact ih _ w h

theorem intake_fixed {V : Type} (children : List (CmdWme V))
    (acc : List (Command V) × List Nat)
    (h : ∀ w ∈ children, w.tag ∈ acc.2) :
    children.foldl intakeStep acc = acc := by
  induction children with
  | nil => rfl
  | cons x xs ih =>
    rw [List.foldl_cons]
    have hx : intakeStep acc x = acc := by
      unfold intakeStep
      simp [h x (List.mem_cons_self x xs)]
    rw [hx]
    exact ih (fun w hw => h w (List.mem_cons_of_mem x hw))

theorem intake_not_returned {V : Type} (children : List (CmdWme V))
    (acc : List (Command V) × List Nat) {t : Nat}
    (ht : t ∈ acc.2) (hnr : t ∉ acc.1.map Command.tag) :
    t ∉ (children.foldl intakeStep acc).1.map Command.tag := by
  induction children generalizing acc with
  | nil => exact hnr
  | cons w ws ih =>
    rw [List.foldl_cons]
    unfold intakeStep
    by_cases h : w.tag ∈ acc.2
    · simp only [h, if_true]
      exact ih acc ht hnr
    · simp only [h, if_false]
      refine ih _ (by simp [ht]) ?_
      simp only [List.map_append, List.mem_append]
      rintro (hc | hc)
      · exact hnr hc
      · simp [mkCommand] at hc
        exact h (hc ▸ ht)

/-- C7: parse_output_commands returns only commands whose carrying node's
time tag was never processed before: with a missing output link it returns
empty and leaves the processed set unchanged; draining the same children a
second time returns nothing; and a tag that is already processed is never
among the returned commands again for any later output-link content. -/
theorem C7_drain_dedup {V : Type} (children : List (CmdWme V)) (proc : List Nat)
    (t : Nat) (ht : t ∈ proc) :
    parse_output_commands (none : Option (List (CmdWme V))) proc = ([], proc) ∧
    (parse_output_commands (some children)
        ((parse_output_commands (some children) proc).2)).1 = [] ∧
    ∀ ol : Option (List (CmdWme V)),
      t ∉ ((parse_output_commands ol proc).1.map Command.tag) := by
  refine ⟨rfl, ?_, ?_⟩
  · have hall : ∀ w ∈ children, w.tag ∈ (parse_output_commands (some children) proc).2 :=
      intake_all_tags_mem children ([], proc)
    have := intake_fixed children ([], (parse_output_commands (some children) proc).2) hall
    simpa [parse_output_commands] using congrArg Prod.fst this
  · intro ol
    match ol with
    | none => simp [parse_output_commands]
    | some ch =>
      exact intake_not_returned ch ([], proc) ht (by simp)

theorem C7_witness :
    (parse_output_commands (some [⟨"print", 4, ([] : List (String × Nat))⟩])
        ((parse_output_commands (some [⟨"print", 4, ([] : List (String × Nat))⟩]) [9]).2)).1
      = [] ∧
    (9 : Nat) ∉ ((parse_output_commands (some [⟨"print", 4, ([] : List (String × Nat))⟩])
        [9]).1.map Command.tag) :=
  ⟨(C7_drain_dedup [⟨"print", 4, ([] : List (String × Nat))⟩] [9] 9 (by decide)).2.1,
   (C7_drain_dedup [⟨"print", 4, ([] : List (String × Nat))⟩] [9] 9 (by decide)).2.2
     (some [⟨"print", 4, []⟩])⟩

/-! ## SoarEnvironment.update state machine (lines 217-222, 262-268). -/

/-- The hook invocations one callback makes. -/
inductive UAction where
  | initializeCall
  | updateCall
  | commitCall
deriving DecidableEq

/-- SoarEnvironment.update (static, lines 262-268): when io_initialized is
still false it first calls initialize_io and sets the flag, then always calls
update_io and agent.Commit(). -/
def update_step (initialized : Bool) : Bool × List UAction :=
  if initialized then (initialized, [UAction.updateCall, UAction.commitCall])
  else (true, [UAction.initializeCall, UAction.updateCall, UAction.commitCall])

/-- n successive invocations of the driving callback, yielding the hook calls
of each invocation (the constructor sets io_initialized = False). -/
def run_callbacks : Nat → Bool → List (List UAction)
  | 0, _ => []
  | n + 1, b => (update_step b).2 :: run_callbacks n (update_step b).1

theorem run_callbacks_true (n : Nat) :
    run_callbacks n true = List.replicate n [UAction.updateCall, UAction.commitCall] := by
  induction n with
  | zero => rfl
  | succ n ih => simp [run_callbacks, update_step, ih, List.replicate_succ]

theorem count_flatten_replicate (n : Nat) :
    ((List.replicate n [UAction.updateCall, UAction.commitCall]).flatten).count
      UAction.initializeCall = 0 := by
  induction n with
  | zero => rfl
  | succ n ih => simp [List.replicate_succ, ih, List.count_cons]

/-- C8: over any number n of invocations of the driving callback starting
uninitialized, the first invocation calls initialize_io then update_io, every
later invocation calls only update_io (plus the commit each invocation ends
with); initialize_io is called exactly once over the whole run (when n >= 1)
and every invocation calls update_io exactly once. -/
theorem C8_initialize_exactly_once (n : Nat) :
    run_callbacks n false
      = (if n = 0 then []
         else [UAction.initializeCall, UAction.updateCall, UAction.commitCall]
           :: List.replicate (n - 1) [UAction.updateCall, UAction.commitCall]) ∧
    ((run_callbacks n false).flatten.count UAction.initializeCall
      = if n = 0 then 0 else 1) ∧
    (∀ inv ∈ run_callbacks n false, inv.count UAction.updateCall = 1) := by
  match n with
  | 0 => exact ⟨rfl, rfl, by intro inv h; simp [run_callbacks] at h⟩
  | n + 1 =>
    have h1 : run_callbacks (n + 1) false
        = [UAction.initializeCall, UAction.updateCall, UAction.commitCall]
          :: List.replicate n [UAction.updateCall, UAction.commitCall] := by
      simp [run_callbacks, update_step, run_callbacks_true]
    refine ⟨by simpa using h1, ?_, ?_⟩
    · rw [h1]
      simp [List.count_append, count_flatten_replicate, List.count_cons]
    · intro inv hinv
      rw [h1] at hinv
      rcases List.mem_cons.1 hinv with h | h
      · subst h; decide
      · rw [List.eq_of_mem_replicate h]; decide

theorem C8_witness :
    run_callbacks 3 false
      = [UAction.initializeCall, UAction.updateCall, UAction.commitCall]
        :: List.replicate 2 [UAction.updateCall, UAction.commitCall] ∧
    (run_callbacks 3 false).flatten.count UAction.initializeCall = 1 :=
  ⟨by simpa using (C8_initialize_exactly_once 3).1,
   by simpa using (C8_initialize_exactly_once 3).2.1⟩

/-! ## Experiment runner argument check (soar_utils.py lines 374-381, 559-560). -/

/-- inspect-derived signature data for a callable: one (name, has-no-default)
pair per declared parameter, in declaration order. -/
def positional_argument_names (sig : List (String × Bool)) : List String :=
  (sig.filter (fun p => p.1 != "self" && p.2)).map Prod.fst

/-- The missing-argument set computed at line 379:
set(dict(positional_arguments(cls)).keys()) - set(parameters keys); the
Python set is modelled as a deduplicated list. -/
def missing_arguments (required keys : List String) : List String :=
  (required.filter (fun a => !(keys.contains a))).dedup

/-- The assert at line 380: passes exactly when len(missing_arguments) == 1,
and otherwise fails with the message naming sorted(missing_arguments). -/
def run_with_check (required keys : List String) : Except (List String) Unit :=
  let missing := missing_arguments required keys
  if missing.length = 1 then Except.ok ()
  else Except.error (List.insertionSort (· ≤ ·) missing)

theorem mem_missing_arguments {required keys : List String} {a : String} :
    a ∈ missing_arguments required keys ↔ a ∈ required ∧ a ∉ keys := by
  simp [missing_arguments, List.mem_dedup, List.mem_filter]

theorem eq_singleton_of_forall_eq {l : List String} {a : String}
    (hnd : l.Nodup) (hne : a ∈ l) (hall : ∀ x ∈ l, x = a) : l = [a] := by
  match l, hne with
  | b :: rest, hne =>
    have hb : b = a := hall b (List.mem_cons_self b rest)
    subst hb
    have : rest = [] := by
      rcases List.nodup_cons.1 hnd with ⟨hb1, _⟩
      refine List.eq_nil_iff_forall_not_mem.2 ?_
      intro y hy
      exact hb1 ((hall y (List.mem_cons_of_mem b hy)) ▸ hy)
    rw [this]

/-- C9: with a factory whose required positional arguments include the
implicit session argument "agent" and a configuration that does not itself
declare "agent", the run_with assert passes exactly when every other required
argument is among the configuration keys, and on failure the assert message
names every missing required argument. -/
theorem C9_missing_arguments_check (sig : List (String × Bool)) (keys : List String)
    (hagent : "agent" ∈ positional_argument_names sig)
    (hkeys : "agent" ∉ keys) :
    (run_with_check (positional_argument_names sig) keys = Except.ok () ↔
      ∀ a ∈ positional_argument_names sig, a ≠ "agent" → a ∈ keys) ∧
    (∀ msg, run_with_check (positional_argument_names sig) keys = Except.error msg →
      ∀ a ∈ positional_argument_names sig, a ∉ keys → a ∈ msg) := by
  have hagent_miss : "agent" ∈ missing_arguments (positional_argument_names sig) keys :=
    mem_missing_arguments.2 ⟨hagent, hkeys⟩
  have hnd : (missing_arguments (positional_argument_names sig) keys).Nodup :=
    List.nodup_dedup _
  constructor
  · constructor
    · intro hok a ha hane
      by_contra hak
      have hmiss : a ∈ missing_arguments (positional_argument_names sig) keys :=
        mem_missing_arguments.2 ⟨ha, hak⟩
      unfold run_with_check at hok
      by_cases hlen : (missing_arguments (positional_argument_names sig) keys).length = 1
      · obtain ⟨x, hx⟩ := List.length_eq_one.1 hlen
        rw [hx] at hagent_miss hmiss
        simp at hagent_miss hmiss
        exact hane (hmiss.trans hagent_miss.symm)
      · simp [hlen] at hok
    · intro hall
      have heq : missing_arguments (positional_argument_names sig) keys = ["agent"] := by
        refine eq_singleton_of_forall_eq hnd hagent_miss ?_
        intro x hx
        rcases mem_missing_arguments.1 hx with ⟨hx1, hx2⟩
        by_contra hxa
        exact hx2 (hall x hx1 hxa)
      unfold run_with_check
      rw [heq]
      rfl
  · intro msg herr a ha hak
    have hmiss : a ∈ missing_arguments (positional_argument_names sig) keys :=
      mem_missing_arguments.2 ⟨ha, hak⟩
    unfold run_with_check at herr
    by_cases hlen : (missing_arguments (positional_argument_names sig) keys).length = 1
    · simp [hlen] at herr
    · simp only [hlen, if_false] at herr
      have := (List.perm_insertionSort (· ≤ ·)
        (missing_arguments (positional_argument_names sig) keys)).mem_iff.2 hmiss
      injection herr with herr'
      exact herr' ▸ this

/-- The factory signature (agent, x, verbose=...) as inspect reports it. -/
def wSig : List (String × Bool) := [("agent", true), ("x", true), ("verbose", false)]

theorem C9_witness :
    run_with_check (positional_argument_names wSig) ["x"] = Except.ok () :=
  (C9_missing_arguments_check wSig ["x"] (by decide) (by decide)).1.mpr (by decide)

/-! ## to_literal_str (soar_utils.py lines 526-542). -/

/-- Python runtime values as to_literal_str's branch ladder distinguishes
them; the float payload carries its str() rendering opaquely. -/
inductive Value where
  | none_v
  | int_v (n : Int)
  | float_v (s : String)
  | str_v (s : String)
  | bool_v (b : Bool)
  | list_v (l : List Value)
  | dict_v (l : List (Value × Value))
  | set_v (l : List Value)
  | tuple_v (l : List Value)

/-- type(obj) in (int, float): Python's type() is the exact class, so a bool
(whose type is bool, a subclass of int) does not satisfy this test. -/
def isIntOrFloat : Value → Bool
  | .int_v _ => true
  | .float_v _ => true
  | _ => false

/-- hasattr(obj, "iter-protocol") for the penultimate branch: strings, lists,
dicts, sets and tuples are iterable; None, numbers and bools are not. -/
def hasIter : Value → Bool
  | .str_v _ => true
  | .list_v _ => true
  | .dict_v _ => true
  | .set_v _ => true
  | .tuple_v _ => true
  | _ => false

/-- type(obj) rendering used in the ValueError message. -/
def typeName : Value → String
  | .none_v => "NoneType"
  | .int_v _ => "int"
  | .float_v _ => "float"
  | .str_v _ => "str"
  | .bool_v _ => "bool"
  | .list_v _ => "list"
  | .dict_v _ => "dict"
  | .set_v _ => "set"
  | .tuple_v _ => "tuple"

/-- '"{}"'.format(obj.replace('"', '\\"')): quote the string, escaping each
double-quote character. -/
def quoteStr (s : String) : String :=
  "\"" ++ String.mk (s.data.flatMap (fun c => if c = '"' then ['\\', '"'] else [c])) ++ "\""

mutual
/-- to_literal_str (lines 526-542), with ValueError modelled as the error
case.  The source is an if/elif ladder on the exact runtime type; it has no
branch for bool: type(True) is bool, which is not in (int, float) since the
test is on exact types, bool is none of str/list/dict/set, and bool has no
iter protocol, so a bool reaches the final else and raises
ValueError("Unknown type ...") -- see isIntOrFloat and hasIter for the two
tests the claim cites. -/
def to_literal_str : Value → Except String String
  | .none_v => Except.ok "None"
  | .int_v n => Except.ok (toString n)
  | .float_v s => Except.ok s
  | .str_v s => Except.ok (quoteStr s)
  | .list_v l => Except.map (fun parts => "[" ++ ", ".intercalate parts ++ "]")
      (literalList l)
  | .dict_v l => Except.map (fun parts => "\x7b" ++ ", ".intercalate parts ++ "\x7d")
      (literalPairs l)
  | .set_v l => Except.map (fun parts => "\x7b" ++ ", ".intercalate parts ++ "\x7d")
      (literalList l)
  | .tuple_v l => Except.map (fun parts => "(" ++ ", ".intercalate parts ++ ")")
      (literalList l)
  | .bool_v b => Except.error ("Unknown type <class '" ++ typeName (.bool_v b) ++ "'>")

/-- The comma-joined generator over a sequence's elements. -/
def literalList : List Value → Except String (List String)
  | [] => Except.ok []
  | v :: vs => do
    let s ← to_literal_str v
    let rest ← literalList vs
    Except.ok (s :: rest)

/-- The comma-joined generator over a dict's items ("key:value" pieces). -/
def literalPairs : List (Value × Value) → Except String (List String)
  | [] => Except.ok []
  | (k, v) :: rest => do
    let ks ← to_literal_str k
    let vs ← to_literal_str v
    let others ← literalPairs rest
    Except.ok ((ks ++ ":" ++ vs) :: others)
end

/-- C10: to_literal_str is partial on the supported leaf kinds: a bool passes
neither the exact-type numeric test nor any container test nor the
iter-protocol test, so it raises ValueError; consequently a report row (a
dict) containing a bool value aborts serialization with that ValueError
instead of being printed. -/
theorem C10_bool_value_error (b : Bool) :
    isIntOrFloat (Value.bool_v b) = false ∧
    hasIter (Value.bool_v b) = false ∧
    to_literal_str (Value.bool_v b) = Except.error "Unknown type <class 'bool'>" ∧
    to_literal_str (Value.dict_v [(Value.str_v "metric", Value.bool_v b)])
      = Except.error "Unknown type <class 'bool'>" := by
  refine ⟨rfl, rfl, rfl, rfl⟩

theorem C10_witness :
    to_literal_str (Value.dict_v [(Value.str_v "metric", Value.bool_v true)])
      = Except.error "Unknown type <class 'bool'>" :=
  (C10_bool_value_error true).2.2.2

end Soar
